import Mathlib

/-!
Verification of the FQDN-extraction script of the k8s-management repository
(`.github/scripts/extract_fqdns.py`).

Python strings are modelled as `List Char`; the Python substring test
(the `in` operator) is `containsSub`, and `str.lower` is `pyLower`
(character-wise lowercasing).  Parsed YAML documents are modelled by the
`Yaml` tree type; the external YAML parser used for embedded document
strings (`yaml.safe_load`) is an explicit function parameter
`parse : List Char → Option Yaml`, where `none` models a parse failure.
The recursion into freshly parsed embedded documents is bounded by an
explicit `fuel` argument that only decreases on the embedded-document
branch; every statement about that branch is made at `fuel + 1`, so the
bound never cuts off the behaviour being described.
-/

/-- Python substring containment: `pat in s`. -/
def containsSub (pat s : List Char) : Bool :=
  s.tails.any (fun t => pat.isPrefixOf t)

/-- Python `str.lower`, modelled character-wise. -/
def pyLower (s : List Char) : List Char := s.map Char.toLower

theorem containsSub_iff (pat s : List Char) : containsSub pat s = true ↔ pat <:+: s := by
  simp only [containsSub, List.any_eq_true, List.mem_tails, List.isPrefixOf_iff_prefix,
    List.infix_iff_prefix_suffix]
  constructor
  · rintro ⟨t, ht, hp⟩
    exact ⟨t, hp, ht⟩
  · rintro ⟨t, hp, ht⟩
    exact ⟨t, ht, hp⟩

/-- The denylist `invalid_patterns` of `is_valid_fqdn`, in source order. -/
def invalid_patterns : List (List Char) :=
  ["example.com".data, "example.local".data, "chart-example.local".data, "localhost".data,
   "127.0.0.1".data, "0.0.0.0".data, ".local".data, "example.org".data, "test.com".data,
   "httpbin.org".data, "quay.io".data, "github.com".data, "kubernetes.io".data,
   "argoproj.io".data, "hashicorp.com".data, "redhat.io".data, "microsoftonline.com".data]

/-- Translation of `is_valid_fqdn`: reject when the lowercased candidate contains a
denylisted pattern, or when the candidate has no dot, contains a brace, or starts
with a double brace. -/
def is_valid_fqdn (fqdn : List Char) : Bool :=
  if invalid_patterns.any (fun p => containsSub p (pyLower fqdn)) then false
  else if !fqdn.contains '.' || fqdn.contains '\x7b' || fqdn.contains '\x7d'
      || "\x7b\x7b".data.isPrefixOf fqdn then false
  else true

theorem contains_char_iff (s : List Char) (c : Char) : s.contains c = true ↔ c ∈ s := by
  simp [List.contains_eq_any_beq, List.any_eq_true]

/-- C1.  The validator accepts exactly the strings that contain a dot, contain no
brace of either kind, and whose lowercase form contains none of the 17 denylisted
tokens; in particular every string starting with a double brace is rejected,
dot or no dot. -/
theorem is_valid_fqdn_spec :
    (∀ s : List Char, is_valid_fqdn s = true ↔
      ('.' ∈ s ∧ '\x7b' ∉ s ∧ '\x7d' ∉ s ∧
        ∀ p ∈ invalid_patterns, ¬ p <:+: pyLower s)) ∧
    (∀ s : List Char, "\x7b\x7b".data <+: s → is_valid_fqdn s = false) := by
  have main : ∀ s : List Char, is_valid_fqdn s = true ↔
      ('.' ∈ s ∧ '\x7b' ∉ s ∧ '\x7d' ∉ s ∧
        ∀ p ∈ invalid_patterns, ¬ p <:+: pyLower s) := by
    intro s
    unfold is_valid_fqdn
    split_ifs with h1 h2
    · constructor
      · intro h; cases h
      · rintro ⟨_, _, _, hpat⟩
        rw [List.any_eq_true] at h1
        obtain ⟨p, hp, hc⟩ := h1
        exact absurd ((containsSub_iff p (pyLower s)).mp hc) (hpat p hp)
    · constructor
      · intro h; cases h
      · rintro ⟨hdot, hbo, hbc, _⟩
        simp only [Bool.or_eq_true, Bool.not_eq_true'] at h2
        rcases h2 with ((h2 | h2) | h2) | h2
        · rw [← contains_char_iff] at hdot
          rw [h2] at hdot
          cases hdot
        · exact absurd ((contains_char_iff s _).mp h2) hbo
        · exact absurd ((contains_char_iff s _).mp h2) hbc
        · rw [List.isPrefixOf_iff_prefix] at h2
          exact absurd (h2.subset (by decide)) hbo
    · constructor
      · intro _
        simp only [Bool.or_eq_true, not_or, Bool.not_eq_true', Bool.not_eq_true,
          Bool.not_eq_false] at h2
        obtain ⟨⟨⟨hd, hbo⟩, hbc⟩, hpre⟩ := h2
        refine ⟨(contains_char_iff s _).mp hd, ?_, ?_, ?_⟩
        · intro hm
          rw [← contains_char_iff, hbo] at hm
          cases hm
        · intro hm
          rw [← contains_char_iff, hbc] at hm
          cases hm
        · intro p hp hinf
          rw [← containsSub_iff] at hinf
          rw [List.any_eq_true] at h1
          exact h1 ⟨p, hp, hinf⟩
      · intro _; rfl
  refine ⟨main, ?_⟩
  intro s hpre
  cases hv : is_valid_fqdn s with
  | false => rfl
  | true =>
    obtain ⟨_, hbo, _, _⟩ := (main s).mp hv
    exact absurd (hpre.subset (by decide)) hbo

/-- Witness for C1 at the spec example: a Helm templating placeholder is rejected. -/
theorem is_valid_fqdn_spec_witness :
    is_valid_fqdn "\x7b\x7b .Values.host \x7d\x7d".data = false :=
  is_valid_fqdn_spec.2 "\x7b\x7b .Values.host \x7d\x7d".data (by decide)

/-- A parsed YAML value: mapping (string keys, insertion order), sequence,
or scalar (string, null, bool, int). -/
inductive Yaml where
  | ystr : List Char → Yaml
  | ymap : List (List Char × Yaml) → Yaml
  | yseq : List Yaml → Yaml
  | ynull : Yaml
  | ybool : Bool → Yaml
  | yint : Int → Yaml

/-- Python truthiness of a parsed YAML value, as used by the checks
written as an if statement on a document or embedded structure. -/
def truthy : Yaml → Bool
  | .ystr s => !s.isEmpty
  | .ymap m => !m.isEmpty
  | .yseq l => !l.isEmpty
  | .ynull => false
  | .ybool b => b
  | .yint n => n != 0

/-- The keys harvested directly as FQDN values. -/
def direct_keys : List (List Char) :=
  ["fqdn".data, "host".data, "commonName".data, "domain".data]

/-- The keys harvested as URL-bearing fields. -/
def url_keys : List (List Char) := ["issuer".data, "url".data, "endpoint".data]

/-- The keys harvested as lists of FQDNs. -/
def list_keys : List (List Char) := ["hosts".data, "dnsNames".data]

/-- The regular expression fragment that matches a scheme-and-authority at the
head of a string: on a match of http:// or https:// the maximal nonempty run of
characters other than a slash directly after it is captured. -/
def authority_after (s : List Char) : Option (List Char) :=
  if "https://".data.isPrefixOf s then
    if ((s.drop 8).takeWhile (fun c => c ≠ '/')).isEmpty then none
    else some ((s.drop 8).takeWhile (fun c => c ≠ '/'))
  else if "http://".data.isPrefixOf s then
    if ((s.drop 7).takeWhile (fun c => c ≠ '/')).isEmpty then none
    else some ((s.drop 7).takeWhile (fun c => c ≠ '/'))
  else none

/-- Left-to-right regex search modelling the call of re.search on the pattern
matching http or https, colon-slash-slash, then one or more non-slash
characters as the captured group. -/
def url_search : List Char → Option (List Char)
  | [] => none
  | c :: rest =>
    match authority_after (c :: rest) with
    | some a => some a
    | none => url_search rest

/-- The URL-bearing field rule: for a string value of a key in url_keys,
extract the authority of a URL when the value starts with http, otherwise
take the raw value when it contains a dot; both paths gated by the validator. -/
def url_field_cands (value : List Char) : List (List Char) :=
  if "http".data.isPrefixOf value then
    match url_search value with
    | some domain => if is_valid_fqdn domain then [domain] else []
    | none => []
  else if value.contains '.' && is_valid_fqdn value then [value] else []

/-- The list-field rule: only string items of the sequence are examined. -/
def list_field_cands : List Yaml → List (List Char)
  | [] => []
  | .ystr s :: rest =>
    if s.contains '.' && !("http".data.isPrefixOf s) && is_valid_fqdn s then
      s :: list_field_cands rest
    else list_field_cands rest
  | _ :: rest => list_field_cands rest

/-- The heuristic deciding that a string value is an embedded YAML document:
it contains a newline and a colon (the second disjunct of the source is
subsumed by the first). -/
def embedded_cond (s : List Char) : Bool :=
  s.contains '\n' && (s.contains ':' || containsSub "issuer:".data s)

mutual

/-- Translation of the recursive tree walk over a parsed YAML value.  The
parse parameter models the external YAML parser used on embedded strings;
fuel bounds only the embedded-document recursion depth. -/
def extract_fqdn_recursive (parse : List Char → Option Yaml) :
    Nat → Yaml → List (List Char)
  | fuel, .ymap entries => walk_entries parse fuel entries
  | fuel, .yseq items => walk_items parse fuel items
  | _, .ystr _ => []
  | _, .ynull => []
  | _, .ybool _ => []
  | _, .yint _ => []
termination_by fuel y => (fuel, sizeOf y)

/-- The mapping loop of the walker, in insertion order. -/
def walk_entries (parse : List Char → Option Yaml) :
    Nat → List (List Char × Yaml) → List (List Char)
  | _, [] => []
  | fuel, (k, v) :: rest => entry_cands parse fuel k v ++ walk_entries parse fuel rest
termination_by fuel es => (fuel, sizeOf es)

/-- The sequence loop of the walker, in index order. -/
def walk_items (parse : List Char → Option Yaml) :
    Nat → List Yaml → List (List Char)
  | _, [] => []
  | fuel, v :: rest => extract_fqdn_recursive parse fuel v ++ walk_items parse fuel rest
termination_by fuel is => (fuel, sizeOf is)

/-- Dispatch on one mapping entry, mirroring the elif chain of the source:
direct field, URL field, list field, embedded YAML string, generic recursion. -/
def entry_cands (parse : List Char → Option Yaml) :
    Nat → List Char → Yaml → List (List Char)
  | fuel, key, .ystr s =>
    if key ∈ direct_keys then
      if s.contains '.' && !("http".data.isPrefixOf s) && is_valid_fqdn s then [s] else []
    else if key ∈ url_keys then
      url_field_cands s
    else if embedded_cond s then
      match parse s with
      | none => []
      | some y =>
        match fuel with
        | 0 => []
        | f + 1 => if truthy y then extract_fqdn_recursive parse f y else []
    else
      extract_fqdn_recursive parse fuel (.ystr s)
  | fuel, key, .yseq items =>
    if key ∈ list_keys then list_field_cands items
    else extract_fqdn_recursive parse fuel (.yseq items)
  | fuel, _, .ymap entries => extract_fqdn_recursive parse fuel (.ymap entries)
  | fuel, _, .ynull => extract_fqdn_recursive parse fuel .ynull
  | fuel, _, .ybool b => extract_fqdn_recursive parse fuel (.ybool b)
  | fuel, _, .yint n => extract_fqdn_recursive parse fuel (.yint n)
termination_by fuel _ v => (fuel, sizeOf v + 1)

end

theorem extract_ystr (parse : List Char → Option Yaml) (fuel : Nat) (s : List Char) :
    extract_fqdn_recursive parse fuel (.ystr s) = [] := by
  rw [extract_fqdn_recursive]

theorem takeWhile_not_slash_decomp (r : List Char) :
    ∃ post, r = r.takeWhile (fun c => c ≠ '/') ++ post ∧
      (∀ c ∈ r.takeWhile (fun c => c ≠ '/'), c ≠ '/') ∧
      (post = [] ∨ ∃ t, post = '/' :: t) := by
  induction r with
  | nil => exact ⟨[], by simp, by simp, Or.inl rfl⟩
  | cons c r ih =>
    by_cases hc : c = '/'
    · refine ⟨c :: r, ?_, ?_, Or.inr ⟨r, by rw [hc]⟩⟩
      · rw [List.takeWhile_cons, if_neg (by simp [hc])]
        simp
      · rw [List.takeWhile_cons, if_neg (by simp [hc])]
        simp
    · obtain ⟨post, heq, hmem, hpost⟩ := ih
      refine ⟨post, ?_, ?_, hpost⟩
      · rw [List.takeWhile_cons, if_pos (by simp [hc])]
        rw [List.cons_append, ← heq]
      · rw [List.takeWhile_cons, if_pos (by simp [hc])]
        intro x hx
        rcases List.mem_cons.mp hx with h | h
        · rw [h]; exact hc
        · exact hmem x h

theorem authority_after_some {s d : List Char} (h : authority_after s = some d) :
    ∃ pre post, s = pre ++ "://".data ++ d ++ post ∧ d ≠ [] ∧
      (∀ c ∈ d, c ≠ '/') ∧ (post = [] ∨ ∃ t, post = '/' :: t) := by
  by_cases h1 : "https://".data.isPrefixOf s = true
  case pos =>
    rw [authority_after, if_pos h1] at h
    by_cases he1 : ((s.drop 8).takeWhile (fun c => c ≠ '/')).isEmpty = true
    case pos => rw [if_pos he1] at h; cases h
    case neg =>
    rw [if_neg he1] at h
    injection h with h
    subst h
    rw [List.isPrefixOf_iff_prefix] at h1
    obtain ⟨t, ht⟩ := h1
    obtain ⟨post, heq, hmem, hpost⟩ := takeWhile_not_slash_decomp (s.drop 8)
    refine ⟨"https".data, post, ?_, fun hnil => he1 (by rw [hnil]; rfl), hmem, hpost⟩
    have hdrop : s.drop 8 = t := by
      rw [← ht, show (8 : Nat) = ("https://".data).length from rfl, List.drop_left]
    calc s = "https://".data ++ t := ht.symm
      _ = "https".data ++ "://".data ++ s.drop 8 := by
          rw [hdrop, show ("https".data ++ "://".data : List Char) = "https://".data from by decide]
      _ = "https".data ++ "://".data ++ ((s.drop 8).takeWhile (fun c => c ≠ '/') ++ post) := by
          rw [← heq]
      _ = "https".data ++ "://".data ++ (s.drop 8).takeWhile (fun c => c ≠ '/') ++ post := by
          simp [List.append_assoc]
  case neg =>
  by_cases h2 : "http://".data.isPrefixOf s = true
  case pos =>
    rw [authority_after, if_neg h1, if_pos h2] at h
    by_cases he2 : ((s.drop 7).takeWhile (fun c => c ≠ '/')).isEmpty = true
    case pos => rw [if_pos he2] at h; cases h
    case neg =>
    rw [if_neg he2] at h
    injection h with h
    subst h
    rw [List.isPrefixOf_iff_prefix] at h2
    obtain ⟨t, ht⟩ := h2
    obtain ⟨post, heq, hmem, hpost⟩ := takeWhile_not_slash_decomp (s.drop 7)
    refine ⟨"http".data, post, ?_, fun hnil => he2 (by rw [hnil]; rfl), hmem, hpost⟩
    have hdrop : s.drop 7 = t := by
      rw [← ht, show (7 : Nat) = ("http://".data).length from rfl, List.drop_left]
    calc s = "http://".data ++ t := ht.symm
      _ = "http".data ++ "://".data ++ s.drop 7 := by
          rw [hdrop, show ("http".data ++ "://".data : List Char) = "http://".data from by decide]
      _ = "http".data ++ "://".data ++ ((s.drop 7).takeWhile (fun c => c ≠ '/') ++ post) := by
          rw [← heq]
      _ = "http".data ++ "://".data ++ (s.drop 7).takeWhile (fun c => c ≠ '/') ++ post := by
          simp [List.append_assoc]
  case neg =>
    rw [authority_after, if_neg h1, if_neg h2] at h
    cases h

theorem url_search_some : ∀ {s d : List Char}, url_search s = some d →
    ∃ pre post, s = pre ++ "://".data ++ d ++ post ∧ d ≠ [] ∧
      (∀ c ∈ d, c ≠ '/') ∧ (post = [] ∨ ∃ t, post = '/' :: t) := by
  intro s
  induction s with
  | nil => intro d h; cases h
  | cons c rest ih =>
    intro d h
    rw [url_search] at h
    rcases ha : authority_after (c :: rest) with _ | a
    · rw [ha] at h
      obtain ⟨pre, post, heq, hd, hmem, hpost⟩ := ih h
      exact ⟨c :: pre, post, by simp [heq], hd, hmem, hpost⟩
    · rw [ha] at h
      injection h with h
      subst h
      exact authority_after_some ha

/-- C4.  For a URL-bearing key with a string value the dispatch applies the URL
rule; when the value starts with http and the regex search captures an authority,
that authority is everything between a colon-slash-slash and the next slash (or
the end of the string), and it becomes the single candidate when the validator
accepts it; when the search fails there is no candidate; when the value does not
start with http the raw value is the single candidate when it contains a dot and
passes the validator.  The spec example is included. -/
theorem url_field_extraction_spec :
    (∀ (parse : List Char → Option Yaml) (fuel : Nat) (key v : List Char), key ∈ url_keys →
      entry_cands parse fuel key (.ystr v) = url_field_cands v) ∧
    (∀ v d : List Char, url_search v = some d →
      (∃ pre post, v = pre ++ "://".data ++ d ++ post ∧ d ≠ [] ∧
        (∀ c ∈ d, c ≠ '/') ∧ (post = [] ∨ ∃ t, post = '/' :: t)) ∧
      ("http".data.isPrefixOf v = true →
        url_field_cands v = if is_valid_fqdn d then [d] else [])) ∧
    (∀ v : List Char, "http".data.isPrefixOf v = true → url_search v = none →
      url_field_cands v = []) ∧
    (∀ v : List Char, "http".data.isPrefixOf v = false →
      url_field_cands v = if v.contains '.' && is_valid_fqdn v then [v] else []) ∧
    url_field_cands "https://auth.mycompany.io/dex".data = ["auth.mycompany.io".data] := by
  refine ⟨?_, ?_, ?_, ?_, by decide⟩
  · intro parse fuel key v hk
    have hnd : key ∉ direct_keys := by
      simp only [url_keys, List.mem_cons, List.not_mem_nil, or_false] at hk
      rcases hk with rfl | rfl | rfl <;> decide
    rw [entry_cands, if_neg hnd, if_pos hk]
  · intro v d h
    refine ⟨url_search_some h, ?_⟩
    intro hp
    rw [url_field_cands, if_pos hp, h]
  · intro v hp h
    rw [url_field_cands, if_pos hp, h]
  · intro v hp
    rw [url_field_cands, if_neg (by rw [hp]; exact fun hx => Bool.noConfusion hx)]

/-- Witness for C4 at the spec example URL. -/
theorem url_field_extraction_spec_witness :
    (∃ pre post, "https://auth.mycompany.io/dex".data =
        pre ++ "://".data ++ "auth.mycompany.io".data ++ post ∧
        "auth.mycompany.io".data ≠ [] ∧ (∀ c ∈ "auth.mycompany.io".data, c ≠ '/') ∧
        (post = [] ∨ ∃ t, post = '/' :: t)) ∧
    url_field_cands "https://auth.mycompany.io/dex".data =
      (if is_valid_fqdn "auth.mycompany.io".data
        then ["auth.mycompany.io".data] else []) := by
  have h := url_field_extraction_spec.2.1 "https://auth.mycompany.io/dex".data
    "auth.mycompany.io".data (by decide)
  exact ⟨h.1, h.2 (by decide)⟩

/-- C9.  A key named host with a sequence value matches neither the direct rule
nor the list rule: the entry falls through to the generic recursive walk, under
which bare string items of the sequence yield nothing while harvested keys
nested inside mapping items still produce their candidates. -/
theorem host_seq_fallthrough_spec :
    (∀ (parse : List Char → Option Yaml) (fuel : Nat) (items : List Yaml),
      entry_cands parse fuel "host".data (.yseq items) =
        extract_fqdn_recursive parse fuel (.yseq items)) ∧
    (∀ (parse : List Char → Option Yaml) (fuel : Nat) (ss : List (List Char)),
      extract_fqdn_recursive parse fuel (.yseq (ss.map .ystr)) = []) ∧
    (∀ (parse : List Char → Option Yaml) (fuel : Nat),
      entry_cands parse fuel "host".data
          (.yseq [.ymap [("host".data, .ystr "api.mycompany.io".data)]]) =
        ["api.mycompany.io".data]) := by
  refine ⟨?_, ?_, ?_⟩
  · intro parse fuel items
    rw [entry_cands, if_neg (by decide)]
  · intro parse fuel ss
    rw [extract_fqdn_recursive]
    induction ss with
    | nil => rw [List.map_nil, walk_items]
    | cons s rest ih =>
      rw [List.map_cons, walk_items, extract_ystr, ih]
      rfl
  · intro parse fuel
    rw [entry_cands, if_neg (by decide), extract_fqdn_recursive, walk_items,
      extract_fqdn_recursive, walk_entries, entry_cands, if_pos (by decide),
      if_pos (by decide), walk_entries, walk_items]
    rfl

/-- C10.  For a hosts or dnsNames key with a sequence value, only string items
are considered; mapping or sequence items are skipped without recursion, so a
nested harvested field inside them yields nothing. -/
theorem list_field_spec :
    (∀ (parse : List Char → Option Yaml) (fuel : Nat) (key : List Char)
      (items : List Yaml), key ∈ list_keys →
      entry_cands parse fuel key (.yseq items) = list_field_cands items) ∧
    (∀ items : List Yaml, list_field_cands items = items.filterMap (fun it =>
      match it with
      | .ystr s =>
        if s.contains '.' && !("http".data.isPrefixOf s) && is_valid_fqdn s then some s
        else none
      | _ => none)) ∧
    list_field_cands [.ymap [("host".data, .ystr "api.mycompany.io".data)]] = [] := by
  refine ⟨?_, ?_, by rfl⟩
  · intro parse fuel key items hk
    rw [entry_cands, if_pos hk]
  · intro items
    induction items with
    | nil => rfl
    | cons it rest ih =>
      cases it with
      | ystr s =>
        rw [list_field_cands, List.filterMap_cons]
        split_ifs with hc
        · simp only [ih]
          rw [if_pos hc]
        · simp only [ih]
          rw [if_neg hc]
      | ymap m => simp only [list_field_cands, List.filterMap_cons, ih]
      | yseq l => simp only [list_field_cands, List.filterMap_cons, ih]
      | ynull => simp only [list_field_cands, List.filterMap_cons, ih]
      | ybool b => simp only [list_field_cands, List.filterMap_cons, ih]
      | yint n => simp only [list_field_cands, List.filterMap_cons, ih]

/-- Witness for C10 at a concrete hosts entry whose single item is a mapping. -/
theorem list_field_spec_witness :
    entry_cands (fun _ => none) 0 "hosts".data
        (.yseq [.ymap [("host".data, .ystr "api.mycompany.io".data)]]) =
      list_field_cands [.ymap [("host".data, .ystr "api.mycompany.io".data)]] :=
  list_field_spec.1 (fun _ => none) 0 "hosts".data
    [.ymap [("host".data, .ystr "api.mycompany.io".data)]] (by decide)

/-- Demonstration input for the embedded-YAML rule: the example string of the
spec, an inline config document. -/
def demo_embedded : List Char := "issuer: https://idp.corp.io\nclientID: x".data

/-- The structure a YAML parser returns for demo_embedded. -/
def demo_embedded_yaml : Yaml :=
  .ymap [("issuer".data, .ystr "https://idp.corp.io".data),
         ("clientID".data, .ystr "x".data)]

/-- A model of the external YAML parser defined at the demonstration string
and failing elsewhere. -/
def demo_parse : List Char → Option Yaml :=
  fun s => if s = demo_embedded then some demo_embedded_yaml else none

theorem demo_parse_eq : demo_parse demo_embedded = some demo_embedded_yaml := by
  rw [show demo_parse demo_embedded =
    (if demo_embedded = demo_embedded then some demo_embedded_yaml else none) from rfl]
  rw [if_pos rfl]

/-- C5.  A mapping entry whose key is none of the harvested keys and whose
string value contains a newline and a colon is handed to the YAML parser: a
parse failure contributes no candidates and raises nothing, while a parse
returning a non-empty structure is walked recursively and its candidates become
the output of the entry.  The spec example is included. -/
theorem embedded_yaml_spec :
    (∀ (parse : List Char → Option Yaml) (fuel : Nat) (key s : List Char),
      key ∉ direct_keys → key ∉ url_keys → key ∉ list_keys →
      '\n' ∈ s → ':' ∈ s →
      ((parse s = none → entry_cands parse (fuel + 1) key (.ystr s) = []) ∧
       (∀ y, parse s = some y → truthy y = true →
         entry_cands parse (fuel + 1) key (.ystr s) =
           extract_fqdn_recursive parse fuel y))) ∧
    entry_cands demo_parse 1 "config".data (.ystr demo_embedded) =
      ["idp.corp.io".data] := by
  constructor
  · intro parse fuel key s hd hu _ hn hc
    have hemb : embedded_cond s = true := by
      rw [embedded_cond, (contains_char_iff s '\n').mpr hn, (contains_char_iff s ':').mpr hc]
      rfl
    constructor
    · intro hp
      rw [entry_cands, if_neg hd, if_neg hu, if_pos hemb, hp]
    · intro y hp ht
      rw [entry_cands, if_neg hd, if_neg hu, if_pos hemb, hp]
      simp only [ht, if_true]
  · rw [entry_cands, if_neg (by decide), if_neg (by decide), if_pos (by decide),
      demo_parse_eq]
    show (if truthy demo_embedded_yaml = true
        then extract_fqdn_recursive demo_parse 0 demo_embedded_yaml else []) =
      ["idp.corp.io".data]
    rw [if_pos (show truthy demo_embedded_yaml = true from rfl)]
    rw [show demo_embedded_yaml = Yaml.ymap
        [("issuer".data, .ystr "https://idp.corp.io".data),
         ("clientID".data, .ystr "x".data)] from rfl]
    rw [extract_fqdn_recursive, walk_entries, entry_cands, if_neg (by decide),
      if_pos (by decide), walk_entries, entry_cands, if_neg (by decide),
      if_neg (by decide), if_neg (by decide), extract_ystr, walk_entries]
    decide

/-- Witness for C5: the general statement applied to the demonstration parser
and entry. -/
theorem embedded_yaml_spec_witness :
    entry_cands demo_parse 1 "config".data (.ystr demo_embedded) =
      extract_fqdn_recursive demo_parse 0 demo_embedded_yaml :=
  (embedded_yaml_spec.1 demo_parse 0 "config".data demo_embedded (by decide) (by decide)
    (by decide) (by decide) (by decide)).2 demo_embedded_yaml demo_parse_eq rfl

/-- The document loop of find_fqdn_in_yaml: every truthy document of the file
is walked and results are concatenated in document order. -/
def walk_documents (parse : List Char → Option Yaml) (fuel : Nat) :
    List Yaml → List (List Char)
  | [] => []
  | d :: rest =>
    (if truthy d then extract_fqdn_recursive parse fuel d else []) ++
      walk_documents parse fuel rest

/-- The outcome of the lazy multi-document iteration that the external parser
performs over one file: the documents it delivered successfully, in order,
before iteration ended, and whether it ended in a read or parse failure rather
than normal exhaustion.  A failure before any document was delivered, such as
a file read error or a malformed first document, is the empty list with the
failure flag set; a failure at a later document leaves the earlier documents
in the list. -/
structure FileParse where
  docs : List Yaml
  failed : Bool

/-- Translation of find_fqdn_in_yaml.  The candidate list accumulates across
the documents delivered by the lazy iteration inside the try block; on a
failure the source logs the error and returns the list accumulated so far, so
the output is the walk of the delivered prefix whether or not a failure
followed it. -/
def find_fqdn_in_yaml (parse : List Char → Option Yaml) (fuel : Nat)
    (file_path : List Char) (content : FileParse) : List (List Char) :=
  if containsSub "/templates/".data file_path
      || containsSub "\\templates\\".data file_path then []
  else walk_documents parse fuel content.docs

/-- C6.  A file whose path contains a templates segment delimited by forward
slashes, or one delimited by back slashes, contributes zero candidates whatever
its content: the content is never examined. -/
theorem templates_skip_spec :
    ∀ (parse : List Char → Option Yaml) (fuel : Nat) (p : List Char)
      (content : FileParse),
      ((∃ pre post, p = pre ++ "/templates/".data ++ post) ∨
       (∃ pre post, p = pre ++ "\\templates\\".data ++ post)) →
      find_fqdn_in_yaml parse fuel p content = [] := by
  intro parse fuel p content h
  have hsub : (containsSub "/templates/".data p
      || containsSub "\\templates\\".data p) = true := by
    rcases h with ⟨pre, post, rfl⟩ | ⟨pre, post, rfl⟩
    · rw [Bool.or_eq_true, containsSub_iff]
      exact Or.inl ⟨pre, post, rfl⟩
    · rw [Bool.or_eq_true]
      refine Or.inr ?_
      rw [containsSub_iff]
      exact ⟨pre, post, rfl⟩
  rw [find_fqdn_in_yaml, if_pos hsub]

/-- Witness for C6 at the spec example path, with a file content that would
otherwise yield a candidate. -/
theorem templates_skip_spec_witness :
    find_fqdn_in_yaml (fun _ => none) 0 "charts/app/templates/deployment.yaml".data
      ⟨[.ymap [("host".data, .ystr "real.example.io".data)]], false⟩ = [] :=
  templates_skip_spec (fun _ => none) 0 "charts/app/templates/deployment.yaml".data
    ⟨[.ymap [("host".data, .ystr "real.example.io".data)]], false⟩
    (Or.inl ⟨"charts/app".data, "deployment.yaml".data, by decide⟩)

/-- A discovered record: the candidate with the metadata attached in main. -/
structure DiscoveredFqdn where
  fqdn : List Char
  source_file : List Char
  app_name : List Char
deriving DecidableEq, Repr

/-- A model of the parts attribute of the pathlib path of a scanned file:
segments split on the path separator (scanned paths are relative). -/
def path_parts (p : List Char) : List (List Char) :=
  (p.splitOn '/').filter (fun seg => !seg.isEmpty)

/-- Derivation of the owning application name in main: the second path
segment when there is one, or the unknown marker. -/
def app_name_of (p : List Char) : List Char :=
  match path_parts p with
  | _ :: a :: _ => a
  | _ => "unknown".data

/-- One iteration of the file loop of main: the candidates of one file with
their metadata attached. -/
def process_file (parse : List Char → Option Yaml) (fuel : Nat)
    (f : List Char × FileParse) : List DiscoveredFqdn :=
  (find_fqdn_in_yaml parse fuel f.1 f.2).map
    (fun d => ⟨d, f.1, app_name_of f.1⟩)

/-- The whole file loop of main, in file enumeration order. -/
def run_extract (parse : List Char → Option Yaml) (fuel : Nat) :
    List (List Char × FileParse) → List DiscoveredFqdn
  | [] => []
  | f :: rest => process_file parse fuel f ++ run_extract parse fuel rest

/-- Counterexample to C7 as stated: a non-templates file whose first document
holds a valid host field and whose iteration then fails on a later document
contributes that candidate, not zero: the source accumulates candidates across
the lazy multi-document iteration and returns the partial list when the
exception arrives. -/
theorem parse_failure_partial_counterexample :
    find_fqdn_in_yaml (fun _ => none) 0 "system/app1/svc.yaml".data
        ⟨[.ymap [("host".data, .ystr "a.real.io".data)]], true⟩ =
      ["a.real.io".data] ∧
    ["a.real.io".data] ≠ ([] : List (List Char)) := by
  constructor
  · rw [find_fqdn_in_yaml, if_neg (by decide)]
    rw [show (⟨[Yaml.ymap [("host".data, .ystr "a.real.io".data)]], true⟩ : FileParse).docs =
      [Yaml.ymap [("host".data, .ystr "a.real.io".data)]] from rfl]
    rw [walk_documents, if_pos (by decide), extract_fqdn_recursive, walk_entries,
      entry_cands, if_pos (by decide), if_pos (by decide), walk_entries, walk_documents]
    rfl
  · exact fun h => List.noConfusion h

/-- C7 amended.  Failure is non-fatal and per-file: the output of a file does
not depend on the failure flag, so a failing file contributes exactly the
candidates of the documents delivered before the failure point, and zero when
the failure precedes the first document (as on a file read error); a run
containing such a file keeps the records of earlier and later files unchanged
around that partial contribution; the model is total, so no exception escapes
the extraction pass. -/
theorem parse_failure_isolation_spec :
    ∀ (parse : List Char → Option Yaml) (fuel : Nat) (p : List Char)
      (docs : List Yaml) (files1 files2 : List (List Char × FileParse)),
      find_fqdn_in_yaml parse fuel p ⟨docs, true⟩ =
        find_fqdn_in_yaml parse fuel p ⟨docs, false⟩ ∧
      find_fqdn_in_yaml parse fuel p ⟨[], true⟩ = [] ∧
      run_extract parse fuel (files1 ++ (p, ⟨[], true⟩) :: files2) =
        run_extract parse fuel files1 ++ run_extract parse fuel files2 ∧
      run_extract parse fuel (files1 ++ (p, ⟨docs, true⟩) :: files2) =
        run_extract parse fuel files1 ++
          (find_fqdn_in_yaml parse fuel p ⟨docs, true⟩).map
            (fun d => ⟨d, p, app_name_of p⟩) ++
          run_extract parse fuel files2 := by
  intro parse fuel p docs files1 files2
  have hnone : find_fqdn_in_yaml parse fuel p ⟨[], true⟩ = [] := by
    rw [find_fqdn_in_yaml]
    split_ifs <;> rfl
  refine ⟨rfl, hnone, ?_, ?_⟩
  · induction files1 with
    | nil =>
      rw [List.nil_append, run_extract, run_extract]
      rw [show process_file parse fuel (p, ⟨[], true⟩) =
        (find_fqdn_in_yaml parse fuel p ⟨[], true⟩).map
          (fun d => ⟨d, p, app_name_of p⟩) from rfl]
      rw [hnone, List.map_nil, List.nil_append]
    | cons f rest ih =>
      rw [List.cons_append, run_extract, ih, run_extract, List.append_assoc]
  · induction files1 with
    | nil =>
      rw [List.nil_append, run_extract, run_extract, List.nil_append]
      rfl
    | cons f rest ih =>
      rw [List.cons_append, run_extract, ih, run_extract]
      simp only [List.append_assoc]

/-- The deduplication loop of main: seen accumulates the fqdn values already
kept; a record is kept exactly when its fqdn has not been seen. -/
def dedup_fqdns : List DiscoveredFqdn → List (List Char) → List DiscoveredFqdn
  | [], _ => []
  | e :: rest, seen =>
    if e.fqdn ∈ seen then dedup_fqdns rest seen
    else e :: dedup_fqdns rest (e.fqdn :: seen)

/-- The deduplicated sequence of main, starting from an empty seen set. -/
def unique_fqdns (all_fqdns : List DiscoveredFqdn) : List DiscoveredFqdn :=
  dedup_fqdns all_fqdns []

theorem dedup_fqdns_sublist :
    ∀ (l : List DiscoveredFqdn) (seen : List (List Char)),
      (dedup_fqdns l seen).Sublist l := by
  intro l
  induction l with
  | nil => intro seen; rw [dedup_fqdns]
  | cons e rest ih =>
    intro seen
    rw [dedup_fqdns]
    split_ifs with h
    · exact (ih seen).cons e
    · exact (ih (e.fqdn :: seen)).cons₂ e

theorem dedup_fqdns_mem_map :
    ∀ (l : List DiscoveredFqdn) (seen : List (List Char)) (f : List Char),
      f ∈ (dedup_fqdns l seen).map DiscoveredFqdn.fqdn ↔
        f ∈ l.map DiscoveredFqdn.fqdn ∧ f ∉ seen := by
  intro l
  induction l with
  | nil =>
    intro seen f
    rw [dedup_fqdns]
    simp
  | cons e rest ih =>
    intro seen f
    rw [dedup_fqdns]
    split_ifs with h
    · rw [ih seen f, List.map_cons, List.mem_cons]
      constructor
      · rintro ⟨hm, hs⟩
        exact ⟨Or.inr hm, hs⟩
      · rintro ⟨hm | hm, hs⟩
        · rw [hm] at hs
          exact absurd h hs
        · exact ⟨hm, hs⟩
    · rw [List.map_cons, List.mem_cons, List.map_cons, List.mem_cons, ih _ f,
        List.mem_cons]
      constructor
      · rintro (rfl | ⟨hm, hs⟩)
        · exact ⟨Or.inl rfl, h⟩
        · exact ⟨Or.inr hm, fun hx => hs (Or.inr hx)⟩
      · rintro ⟨hm | hm, hs⟩
        · exact Or.inl hm
        · by_cases hfe : f = e.fqdn
          · exact Or.inl hfe
          · exact Or.inr ⟨hm, fun hx => (hx.elim hfe fun hx2 => hs hx2)⟩

theorem dedup_fqdns_nodup :
    ∀ (l : List DiscoveredFqdn) (seen : List (List Char)),
      ((dedup_fqdns l seen).map DiscoveredFqdn.fqdn).Nodup := by
  intro l
  induction l with
  | nil => intro seen; rw [dedup_fqdns]; exact List.nodup_nil
  | cons e rest ih =>
    intro seen
    rw [dedup_fqdns]
    split_ifs with h
    · exact ih seen
    · rw [List.map_cons, List.nodup_cons]
      refine ⟨?_, ih _⟩
      intro hm
      exact ((dedup_fqdns_mem_map rest _ e.fqdn).mp hm).2 (List.mem_cons_self _ _)

theorem dedup_fqdns_first_occurrence :
    ∀ (l : List DiscoveredFqdn) (seen : List (List Char)) (e : DiscoveredFqdn),
      e ∈ dedup_fqdns l seen →
      e.fqdn ∉ seen ∧ ∃ l₁ l₂, l = l₁ ++ e :: l₂ ∧ ∀ x ∈ l₁, x.fqdn ≠ e.fqdn := by
  intro l
  induction l with
  | nil =>
    intro seen e hm
    rw [dedup_fqdns] at hm
    cases hm
  | cons a rest ih =>
    intro seen e hm
    rw [dedup_fqdns] at hm
    split_ifs at hm with h
    · obtain ⟨hs, l₁, l₂, heq, hne⟩ := ih seen e hm
      refine ⟨hs, a :: l₁, l₂, by rw [heq, List.cons_append], ?_⟩
      intro x hx
      rcases List.mem_cons.mp hx with rfl | hx
      · intro hxe
        rw [hxe] at h
        exact hs h
      · exact hne x hx
    · rcases List.mem_cons.mp hm with rfl | hm
      · exact ⟨h, [], rest, rfl, by intro x hx; cases hx⟩
      · obtain ⟨hs, l₁, l₂, heq, hne⟩ := ih _ e hm
        have hsd : e.fqdn ∉ seen := fun hx => hs (List.mem_cons_of_mem _ hx)
        have hsa : e.fqdn ≠ a.fqdn := fun hx => hs (by rw [hx]; exact List.mem_cons_self _ _)
        refine ⟨hsd, a :: l₁, l₂, by rw [heq, List.cons_append], ?_⟩
        intro x hx
        rcases List.mem_cons.mp hx with rfl | hx
        · exact fun hx2 => hsa hx2.symm
        · exact hne x hx

/-- C2.  Deduplication keeps, in discovery order, exactly the first occurrence
of each distinct fqdn value (compared as exact character sequences): the output
is a subsequence of the input, its fqdn values are pairwise distinct, every
input fqdn value survives, and every kept record is the first record of the
input carrying its fqdn value, later occurrences being dropped whatever their
source file or application name. -/
theorem dedup_spec :
    ∀ l : List DiscoveredFqdn,
      (unique_fqdns l).Sublist l ∧
      ((unique_fqdns l).map DiscoveredFqdn.fqdn).Nodup ∧
      (∀ f : List Char, f ∈ (unique_fqdns l).map DiscoveredFqdn.fqdn ↔
        f ∈ l.map DiscoveredFqdn.fqdn) ∧
      (∀ e ∈ unique_fqdns l,
        ∃ l₁ l₂, l = l₁ ++ e :: l₂ ∧ ∀ x ∈ l₁, x.fqdn ≠ e.fqdn) := by
  intro l
  refine ⟨dedup_fqdns_sublist l [], dedup_fqdns_nodup l [], ?_, ?_⟩
  · intro f
    rw [unique_fqdns, dedup_fqdns_mem_map l [] f]
    simp
  · intro e hm
    exact (dedup_fqdns_first_occurrence l [] e hm).2

/-- Witness for C2: two records sharing an fqdn but differing in source file
and application name; the kept one is the first. -/
theorem dedup_spec_witness :
    ∃ l₁ l₂ : List DiscoveredFqdn,
      [(⟨"a.io".data, "f1".data, "app1".data⟩ : DiscoveredFqdn),
       ⟨"a.io".data, "f2".data, "app2".data⟩] = l₁ ++
        (⟨"a.io".data, "f1".data, "app1".data⟩ : DiscoveredFqdn) :: l₂ ∧
      ∀ x ∈ l₁, x.fqdn ≠ "a.io".data :=
  (dedup_spec [⟨"a.io".data, "f1".data, "app1".data⟩,
    ⟨"a.io".data, "f2".data, "app2".data⟩]).2.2.2
    ⟨"a.io".data, "f1".data, "app1".data⟩ (by decide)

/-- Three-way lexicographic comparison of Python strings by code point,
modelling the comparison used by the sort of main on each key component. -/
def strCmp : List Char → List Char → Ordering
  | [], [] => .eq
  | [], _ :: _ => .lt
  | _ :: _, [] => .gt
  | a :: as, b :: bs => if a < b then .lt else if b < a then .gt else strCmp as bs

/-- Python string less-or-equal: not strictly greater. -/
def strLe (s t : List Char) : Bool := !(strCmp s t == .gt)

/-- The sort key order of main: ascending by application name, then fqdn. -/
def key_le (a b : DiscoveredFqdn) : Bool :=
  if strCmp a.app_name b.app_name = .lt then true
  else if strCmp a.app_name b.app_name = .gt then false
  else strLe a.fqdn b.fqdn

theorem strCmp_eq_iff : ∀ s t : List Char, strCmp s t = .eq ↔ s = t := by
  intro s
  induction s with
  | nil => intro t; cases t <;> simp [strCmp]
  | cons a as ih =>
    intro t
    cases t with
    | nil => simp [strCmp]
    | cons b bs =>
      rw [strCmp]
      by_cases h1 : a < b
      · rw [if_pos h1]
        simp only [List.cons.injEq]
        constructor
        · intro h; cases h
        · rintro ⟨rfl, _⟩; exact absurd h1 (lt_irrefl a)
      · by_cases h2 : b < a
        · rw [if_neg h1, if_pos h2]
          simp only [List.cons.injEq]
          constructor
          · intro h; cases h
          · rintro ⟨rfl, _⟩; exact absurd h2 (lt_irrefl a)
        · rw [if_neg h1, if_neg h2]
          have hab : a = b := le_antisymm (not_lt.mp h2) (not_lt.mp h1)
          rw [ih bs]
          simp [hab]

theorem strCmp_gt_iff : ∀ s t : List Char, strCmp s t = .gt ↔ strCmp t s = .lt := by
  intro s
  induction s with
  | nil => intro t; cases t <;> simp [strCmp]
  | cons a as ih =>
    intro t
    cases t with
    | nil => simp [strCmp]
    | cons b bs =>
      rw [strCmp, strCmp]
      by_cases h1 : a < b
      · rw [if_pos h1, if_neg (asymm h1), if_pos h1]
        constructor <;> (intro h; cases h)
      · by_cases h2 : b < a
        · rw [if_neg h1, if_pos h2, if_pos h2]
          constructor <;> (intro _; rfl)
        · rw [if_neg h1, if_neg h2, if_neg h2, if_neg h1]
          exact ih bs

theorem strCmp_lt_trans : ∀ s t u : List Char,
    strCmp s t = .lt → strCmp t u = .lt → strCmp s u = .lt := by
  intro s
  induction s with
  | nil =>
    intro t u h1 h2
    cases t with
    | nil => cases h1
    | cons b bs =>
      cases u with
      | nil => cases h2
      | cons c cs => rw [strCmp]
  | cons a as ih =>
    intro t u h1 h2
    cases t with
    | nil => rw [strCmp] at h1; cases h1
    | cons b bs =>
      cases u with
      | nil => rw [strCmp] at h2; cases h2
      | cons c cs =>
        rw [strCmp] at h1 h2 ⊢
        by_cases hab : a < b
        · by_cases hbc : b < c
          · rw [if_pos (lt_trans hab hbc)]
          · by_cases hcb : c < b
            · rw [if_neg hbc, if_pos hcb] at h2
              cases h2
            · have hbceq : b = c := le_antisymm (not_lt.mp hcb) (not_lt.mp hbc)
              rw [if_pos (hbceq ▸ hab)]
        · by_cases hba : b < a
          · rw [if_neg hab, if_pos hba] at h1
            cases h1
          · have habeq : a = b := le_antisymm (not_lt.mp hba) (not_lt.mp hab)
            by_cases hbc : b < c
            · rw [if_pos (habeq ▸ hbc)]
            · by_cases hcb : c < b
              · rw [if_neg hbc, if_pos hcb] at h2
                cases h2
              · have hbceq : b = c := le_antisymm (not_lt.mp hcb) (not_lt.mp hbc)
                rw [if_neg hab, if_neg hba] at h1
                rw [if_neg hbc, if_neg hcb] at h2
                have hac : ¬ a < c := hbceq ▸ habeq ▸ lt_irrefl a
                rw [if_neg hac, if_neg fun hx => hac ?_]
                · exact ih bs cs h1 h2
                · rw [habeq, hbceq] at hx ⊢
                  exact hx

theorem strLe_iff (s t : List Char) : strLe s t = true ↔ strCmp s t ≠ .gt := by
  rw [strLe]
  cases h : strCmp s t <;> simp [h] <;> decide

theorem strLe_total (s t : List Char) : (strLe s t || strLe t s) = true := by
  rw [Bool.or_eq_true, strLe_iff, strLe_iff]
  cases h : strCmp s t with
  | lt => exact Or.inl (by decide)
  | eq => exact Or.inl (by decide)
  | gt =>
    refine Or.inr ?_
    rw [(strCmp_gt_iff s t).mp h]
    exact fun hx => Ordering.noConfusion hx

theorem strLe_trans (s t u : List Char) (h1 : strLe s t = true) (h2 : strLe t u = true) :
    strLe s u = true := by
  rw [strLe_iff] at h1 h2 ⊢
  cases hst : strCmp s t with
  | gt => exact absurd hst h1
  | eq =>
    rw [(strCmp_eq_iff s t).mp hst]
    exact h2
  | lt =>
    cases htu : strCmp t u with
    | gt => exact absurd htu h2
    | eq =>
      rw [← (strCmp_eq_iff t u).mp htu, hst]
      exact fun hx => Ordering.noConfusion hx
    | lt =>
      rw [strCmp_lt_trans s t u hst htu]
      exact fun hx => Ordering.noConfusion hx

theorem key_le_total (a b : DiscoveredFqdn) : (key_le a b || key_le b a) = true := by
  rw [key_le, key_le]
  cases h : strCmp a.app_name b.app_name with
  | lt => simp
  | gt =>
    rw [(strCmp_gt_iff _ _).mp h]
    simp
  | eq =>
    have hba : strCmp b.app_name a.app_name = .eq :=
      (strCmp_eq_iff _ _).mpr ((strCmp_eq_iff _ _).mp h).symm
    rw [hba]
    simp only [Bool.or_eq_true]
    rw [if_neg (by decide), if_neg (by decide), if_neg (by decide), if_neg (by decide)]
    rw [← Bool.or_eq_true]
    exact strLe_total a.fqdn b.fqdn

theorem key_le_trans (a b c : DiscoveredFqdn) (h1 : key_le a b = true)
    (h2 : key_le b c = true) : key_le a c = true := by
  rw [key_le] at h1 h2 ⊢
  cases hab : strCmp a.app_name b.app_name with
  | gt => rw [hab] at h1; simp at h1
  | lt =>
    cases hbc : strCmp b.app_name c.app_name with
    | gt => rw [hbc] at h2; simp at h2
    | lt => rw [if_pos (strCmp_lt_trans _ _ _ hab hbc)]
    | eq => rw [if_pos (((strCmp_eq_iff _ _).mp hbc) ▸ hab)]
  | eq =>
    have habeq := (strCmp_eq_iff _ _).mp hab
    cases hbc : strCmp b.app_name c.app_name with
    | gt => rw [hbc] at h2; simp at h2
    | lt => rw [if_pos (habeq.symm ▸ hbc)]
    | eq =>
      have hbceq := (strCmp_eq_iff _ _).mp hbc
      have hac : strCmp a.app_name c.app_name = .eq :=
        (strCmp_eq_iff _ _).mpr (habeq.trans hbceq)
      rw [hab] at h1
      rw [hbc] at h2
      rw [hac]
      simp only [if_neg (show ¬ Ordering.eq = Ordering.lt from by decide),
        if_neg (show ¬ Ordering.eq = Ordering.gt from by decide)] at h1 h2 ⊢
      exact strLe_trans _ _ _ h1 h2

/-- The sort of main on the deduplicated records, ascending by the pair of
application name and fqdn. -/
def sorted_unique (l : List DiscoveredFqdn) : List DiscoveredFqdn :=
  (unique_fqdns l).mergeSort key_le

/-- A monitoring endpoint record. -/
structure Endpoint where
  name : List Char
  url : List Char
  interval : List Char
  conditions : List (List Char)
deriving DecidableEq, Repr

/-- Python str.split on a single-character separator. -/
def pySplit (sep : Char) : List Char → List (List Char)
  | [] => [[]]
  | c :: rest =>
    if c = sep then [] :: pySplit sep rest
    else
      match pySplit sep rest with
      | [] => [[c]]
      | p :: ps => (c :: p) :: ps

/-- Translation of create_simple_endpoint: the name uses the staging marker
when the fqdn contains the substring staging, otherwise the first label of the
fqdn; the url is always https; interval and conditions are fixed. -/
def create_simple_endpoint (fqdn app_name source_file : List Char) : Endpoint :=
  { name :=
      if containsSub "staging".data fqdn then app_name ++ "-staging".data
      else app_name ++ "-".data ++ (pySplit '.' fqdn).headD []
    url := "https://".data ++ fqdn
    interval := "5m".data
    conditions := ["[STATUS] == 200".data, "[RESPONSE_TIME] < 3000".data] }

/-- The endpoint list of main: one endpoint per sorted deduplicated record,
in that order. -/
def endpoints_list (all_fqdns : List DiscoveredFqdn) : List Endpoint :=
  (sorted_unique all_fqdns).map
    (fun e => create_simple_endpoint e.fqdn e.app_name e.source_file)

/-- C3.  After deduplication the final sequence is sorted ascending by the
pair of application name and fqdn under the lexicographic case-sensitive
string order, it is a permutation of the deduplicated records, and exactly
one endpoint is derived per record, at the same position. -/
theorem sort_and_synthesis_spec :
    ∀ l : List DiscoveredFqdn,
      (sorted_unique l).Pairwise (fun a b => key_le a b = true) ∧
      (sorted_unique l).Perm (unique_fqdns l) ∧
      (endpoints_list l).length = (sorted_unique l).length ∧
      (∀ i : Nat, (endpoints_list l)[i]? =
        Option.map (fun e => create_simple_endpoint e.fqdn e.app_name e.source_file)
          (sorted_unique l)[i]?) := by
  intro l
  refine ⟨?_, List.mergeSort_perm _ _, List.length_map _ _, ?_⟩
  · exact List.sorted_mergeSort key_le_trans key_le_total (unique_fqdns l)
  · intro i
    rw [endpoints_list, List.getElem?_map]

theorem pySplit_ne_nil : ∀ (sep : Char) (s : List Char), pySplit sep s ≠ [] := by
  intro sep s
  induction s with
  | nil => exact fun h => List.noConfusion h
  | cons c rest ih =>
    rw [pySplit]
    split_ifs with hc
    · exact fun h => List.noConfusion h
    · rcases hps : pySplit sep rest with _ | ⟨p, ps⟩
      · exact absurd hps ih
      · exact fun h => List.noConfusion h

theorem pySplit_head : ∀ (sep : Char) (s : List Char),
    (pySplit sep s).headD [] = s.takeWhile (fun c => c ≠ sep) := by
  intro sep s
  induction s with
  | nil => rfl
  | cons c rest ih =>
    rw [pySplit]
    split_ifs with hc
    · rw [List.takeWhile_cons, if_neg (by simp [hc])]
      rfl
    · rw [List.takeWhile_cons, if_pos (by simp [hc])]
      rcases hps : pySplit sep rest with _ | ⟨p, ps⟩
      · exact absurd hps (pySplit_ne_nil sep rest)
      · rw [hps] at ih
        rw [List.headD_cons] at ih
        rw [List.headD_cons, ih]

/-- C8.  The endpoint synthesizer is a total function of the record alone: the
name carries the staging marker exactly when staging occurs as a case-sensitive
substring of the fqdn and otherwise appends the prefix of the fqdn before its
first dot, the url prefixes https to the fqdn, the interval is five minutes and
the conditions are the fixed ordered pair. -/
theorem create_simple_endpoint_spec :
    ∀ fqdn app_name source_file : List Char,
      create_simple_endpoint fqdn app_name source_file =
        { name :=
            if "staging".data <:+: fqdn then app_name ++ "-staging".data
            else app_name ++ "-".data ++ fqdn.takeWhile (fun c => c ≠ '.')
          url := "https://".data ++ fqdn
          interval := "5m".data
          conditions := ["[STATUS] == 200".data, "[RESPONSE_TIME] < 3000".data] } := by
  intro f a s
  rw [create_simple_endpoint, pySplit_head]
  by_cases h : "staging".data <:+: f
  · rw [if_pos ((containsSub_iff _ _).mpr h), if_pos h]
  · rw [if_neg (fun hx => h ((containsSub_iff _ _).mp hx)), if_neg h]
